import Mathlib

/-!
Verification of the two core algorithms of the time-tracking UI repository:
the free-text duration parser (`parseTimeInput`, `roundTo15`, `formatDuration`)
and the fuzzy subsequence matcher / autocomplete contract (`fuzzyMatch`,
`filteredItems`, `suggestion`, inline completion).

Strings are embedded as `List Char`.  JavaScript numbers are embedded as
natural numbers (every value the parser produces is a non-negative integer);
the fractional intermediate value of the hour-suffix and bare-decimal branches
(`parseFloat(x) * 60`) is carried exactly as a numerator/denominator pair of
naturals rather than as an IEEE double — on the decimal literals involved the
two agree, and the rounding formula is justified against the mathematical
definition of `Math.round` below (`roundTo15Frac_floor`).
-/

/-- Character class of JavaScript `\s` (and of the ends removed by
`String.prototype.trim`): tab, LF, VT, FF, CR, space, NBSP, and the Unicode
space separators, line/paragraph separators and BOM. -/
def jsWs (c : Char) : Bool :=
  c.toNat == 9 || c.toNat == 10 || c.toNat == 11 || c.toNat == 12 || c.toNat == 13 ||
  c.toNat == 32 || c.toNat == 160 || c.toNat == 0x1680 ||
  (0x2000 ≤ c.toNat && c.toNat ≤ 0x200a) || c.toNat == 0x2028 || c.toNat == 0x2029 ||
  c.toNat == 0x202f || c.toNat == 0x205f || c.toNat == 0x3000 || c.toNat == 0xfeff

/-- JavaScript `String.prototype.trim`: remove whitespace from both ends. -/
def jsTrim (l : List Char) : List Char :=
  ((l.dropWhile jsWs).reverse.dropWhile jsWs).reverse

/-- JavaScript `toLowerCase`, restricted to the ASCII range (the only letters
the parser's patterns and the test labels involve): map `A`–`Z` to `a`–`z`. -/
def jsToLower (c : Char) : Char :=
  if 65 ≤ c.toNat ∧ c.toNat ≤ 90 then Char.ofNat (c.toNat + 32) else c

/-- `toLowerCase` applied to a whole string. -/
def lowerL (l : List Char) : List Char := l.map jsToLower

/-- The regex character class `\d`: the ASCII digits `0`–`9`. -/
def isDigitC (c : Char) : Bool := 48 ≤ c.toNat && c.toNat ≤ 57

/-- Numeric value of an ASCII digit. -/
def digitVal (c : Char) : ℕ := c.toNat - 48

/-- `parseInt(s, 10)` on a string of decimal digits. -/
def natOfDigits (l : List Char) : ℕ := l.foldl (fun a c => 10 * a + digitVal c) 0

/-- Source `roundTo15`, `Math.round(minutes / 15) * 15`, evaluated at the exact
rational `minutes = num / den` (`den > 0`).  `Math.round x = ⌊x + 1/2⌋` (halves
round toward positive infinity), and for naturals
`⌊num / (15 * den) + 1/2⌋ = (2 * num + 15 * den) / (30 * den)` with natural
division; `roundTo15Frac_floor` below proves this reading correct. -/
def roundTo15Frac (num den : ℕ) : ℕ := (2 * num + 15 * den) / (30 * den) * 15

/-- Source `roundTo15` on a whole number of minutes: `Math.round(m / 15) * 15`. -/
def roundTo15 (minutes : ℕ) : ℕ := roundTo15Frac minutes 1

/-- The anchored regex `^(\d+):(\d{1,2})$` of `parseTimeInput` together with the
two `parseInt` calls: on success, the numeric values of the hours group and of
the minutes group.  A match decomposes the input as a maximal non-empty digit
run, a colon, and one or two further digits. -/
def colonParts (l : List Char) : Option (ℕ × ℕ) :=
  match l.dropWhile isDigitC with
  | [] => none
  | c :: ds2 =>
      if c = ':' ∧ l.takeWhile isDigitC ≠ [] ∧ ds2 ≠ [] ∧ ds2.length ≤ 2 ∧ ds2.all isDigitC = true then
        some (natOfDigits (l.takeWhile isDigitC), natOfDigits ds2)
      else none

/-- The number pattern `\d*\.?\d+` (an integer, or an optionally integer-headed
decimal) together with `parseFloat`: on success, the exact value of the literal
as a fraction `num / den` with `den` the power of ten of the fractional digits. -/
def decimalParts (l : List Char) : Option (ℕ × ℕ) :=
  match l.dropWhile isDigitC with
  | [] => if l ≠ [] then some (natOfDigits l, 1) else none
  | c :: ds2 =>
      if c = '.' ∧ ds2 ≠ [] ∧ ds2.all isDigitC = true then
        some (natOfDigits (l.takeWhile isDigitC) * 10 ^ ds2.length + natOfDigits ds2, 10 ^ ds2.length)
      else none

/-- The anchored regex `^(\d*\.\d+)$` of the bare-decimal branch: like
`decimalParts` but the decimal point is mandatory. -/
def decimalOnlyParts (l : List Char) : Option (ℕ × ℕ) :=
  match l.dropWhile isDigitC with
  | [] => none
  | c :: ds2 =>
      if c = '.' ∧ ds2 ≠ [] ∧ ds2.all isDigitC = true then
        some (natOfDigits (l.takeWhile isDigitC) * 10 ^ ds2.length + natOfDigits ds2, 10 ^ ds2.length)
      else none

/-- The anchored regex `^(\d*\.?\d+)\s*h$` of the hour-suffix branch together
with `parseFloat`: the input must end in `h`, optionally preceded by
whitespace, preceded by a number literal; on success, the literal's exact
value as a fraction. -/
def hourParts (l : List Char) : Option (ℕ × ℕ) :=
  match l.reverse with
  | [] => none
  | c :: rest => if c = 'h' then decimalParts (rest.dropWhile jsWs).reverse else none

/-- The anchored regex `^(\d+)\s*m$` of the minute-suffix branch together with
`parseInt`: the input must end in `m`, optionally preceded by whitespace,
preceded by a non-empty digit run; on success, that run's numeric value. -/
def minParts (l : List Char) : Option ℕ :=
  match l.reverse with
  | [] => none
  | c :: rest =>
      if c = 'm' then
        let ds := (rest.dropWhile jsWs).reverse
        if ds ≠ [] ∧ ds.all isDigitC = true then some (natOfDigits ds) else none
      else none

/-- The anchored regex `^(\d+)$` of the bare-integer branch together with
`parseInt`. -/
def plainParts (l : List Char) : Option ℕ :=
  if l ≠ [] ∧ l.all isDigitC = true then some (natOfDigits l) else none

/-- The body of source `parseTimeInput` after the initial
`input.trim().toLowerCase()`: return `null` on the empty string, then try the
colon, hour-suffix, minute-suffix, bare-integer and bare-decimal patterns in
that order; the first structural match decides the result.  The colon branch
rejects a minutes component of 60 or more; every successful branch rounds with
`roundTo15`.  `none` embeds JavaScript `null`. -/
def parseTimeTrimmed (trimmed : List Char) : Option ℕ :=
  if trimmed = [] then none else
  match colonParts trimmed with
  | some (hours, mins) => if 60 ≤ mins then none else some (roundTo15 (hours * 60 + mins))
  | none =>
  match hourParts trimmed with
  | some (num, den) => some (roundTo15Frac (60 * num) den)
  | none =>
  match minParts trimmed with
  | some mins => some (roundTo15 mins)
  | none =>
  match plainParts trimmed with
  | some mins => some (roundTo15 mins)
  | none =>
  match decimalOnlyParts trimmed with
  | some (num, den) => some (roundTo15Frac (60 * num) den)
  | none => none

/-- Source `parseTimeInput`: `const trimmed = input.trim().toLowerCase()`
followed by the pattern cascade of `parseTimeTrimmed`. -/
def parseTimeInput (input : List Char) : Option ℕ :=
  parseTimeTrimmed (lowerL (jsTrim input))

/-- Decimal digit character, as produced by JavaScript number-to-string
conversion of a digit value. -/
def digitChar10 (d : ℕ) : Char :=
  match d with
  | 0 => '0' | 1 => '1' | 2 => '2' | 3 => '3' | 4 => '4'
  | 5 => '5' | 6 => '6' | 7 => '7' | 8 => '8' | _ => '9'

/-- Helper for decimal rendering: peel digits from the low end, accumulating
the written-out form.  The fuel argument only bounds the recursion; any fuel
with `n < 10 ^ fuel` yields the full decimal expansion of `n`. -/
def natToDecAux : ℕ → ℕ → List Char → List Char
  | 0, _, acc => acc
  | fuel + 1, n, acc =>
      if n < 10 then digitChar10 n :: acc
      else natToDecAux fuel (n / 10) (digitChar10 (n % 10) :: acc)

/-- JavaScript number-to-string conversion for a natural number (as used by the
template literals in `formatDuration`): the decimal digits of `n`. -/
def natToDec (n : ℕ) : List Char := natToDecAux (n + 1) n []

/-- Source `formatDuration`: split minutes into whole hours and leftover
minutes and render `"Nm"` when there are no whole hours, `"Nh"` when there are
no leftover minutes, and `"Hh Mm"` otherwise. -/
def formatDuration (minutes : ℕ) : List Char :=
  let hours := minutes / 60
  let mins := minutes % 60
  if hours = 0 then natToDec mins ++ ['m']
  else if mins = 0 then natToDec hours ++ ['h']
  else natToDec hours ++ 'h' :: ' ' :: (natToDec mins ++ ['m'])

/-- The scanning loop of source `fuzzyMatch`: walk the text left to right,
advancing a cursor into the query on every character equal to the character
under the cursor; succeed exactly when the cursor reaches the end of the
query. -/
def subseqScan : List Char → List Char → Bool
  | _, [] => true
  | [], _ :: _ => false
  | t :: ts, q :: qs => if t = q then subseqScan ts qs else subseqScan ts (q :: qs)

/-- Source `fuzzyMatch`: lower-case both the text and the query, then run the
greedy subsequence scan. -/
def fuzzyMatch (text query : List Char) : Bool := subseqScan (lowerL text) (lowerL query)

/-- Source `filteredItems` of the `SearchSelect` component:
`query ? items.filter((item) => fuzzyMatch(getLabel(item), query)) : items`. -/
def filteredItems {α : Type} (getLabel : α → List Char) (items : List α) (query : List Char) :
    List α :=
  if query ≠ [] then items.filter (fun item => fuzzyMatch (getLabel item) query) else items

/-- Source `suggestion` of the `SearchSelect` component:
`query && filteredItems.length > 0 ? filteredItems[0] : null`. -/
def suggestion {α : Type} (getLabel : α → List Char) (items : List α) (query : List Char) :
    Option α :=
  if query ≠ [] ∧ 0 < (filteredItems getLabel items query).length then
    (filteredItems getLabel items query).head?
  else none

/-- JavaScript `String.prototype.startsWith`: is the second list a literal
leading segment of the first? -/
def startsWithL : List Char → List Char → Bool
  | _, [] => true
  | [], _ :: _ => false
  | t :: ts, p :: ps => if t = p then startsWithL ts ps else false

/-- Source `showInlineSuggestion`, as a function of the suggestion's label and
the query (the surrounding component additionally requires a suggestion to
exist):
`suggestionLabel.toLowerCase().startsWith(query.toLowerCase()) && query.length > 0`. -/
def showInlineSuggestion (suggestionLabel query : List Char) : Bool :=
  startsWithL (lowerL suggestionLabel) (lowerL query) && decide (0 < query.length)

/-- The inline ghost text of `SearchSelect`: rendered only when
`showInlineSuggestion` holds, and then equal to
`suggestionLabel.slice(query.length)` — the tail of the label, original casing
preserved.  `none` embeds the ghost element not being rendered. -/
def inlineCompletionText (suggestionLabel query : List Char) : Option (List Char) :=
  if showInlineSuggestion suggestionLabel query = true then
    some (suggestionLabel.drop query.length)
  else none

/-- The example label list of the specification's test properties. -/
def exAnthropic : List Char := ['A', 'n', 't', 'h', 'r', 'o', 'p', 'i', 'c']

/-- Example label. -/
def exVercel : List Char := ['V', 'e', 'r', 'c', 'e', 'l']

/-- Example label. -/
def exStripe : List Char := ['S', 't', 'r', 'i', 'p', 'e']

/-- Example label. -/
def exLinear : List Char := ['L', 'i', 'n', 'e', 'a', 'r']

/-- Example label. -/
def exFigma : List Char := ['F', 'i', 'g', 'm', 'a']

/-- The candidate list of the specification's test properties. -/
def exLabels : List (List Char) := [exAnthropic, exVercel, exStripe, exLinear, exFigma]

/-! Supporting lemmas: character classes, trimming and lower-casing. -/

/-- ASCII digits are not JavaScript whitespace. -/
theorem jsWs_eq_false_of_digit {c : Char} (h : isDigitC c = true) : jsWs c = false := by
  simp only [isDigitC, Bool.and_eq_true, decide_eq_true_eq] at h
  simp only [jsWs, Bool.or_eq_false_iff, beq_eq_false_iff_ne, ne_eq, Bool.and_eq_false_iff,
    decide_eq_false_iff_not, not_le]
  omega

/-- `toLowerCase` fixes characters outside the upper-case ASCII range. -/
theorem jsToLower_eq_self {c : Char} (h : c.toNat < 65 ∨ 90 < c.toNat) : jsToLower c = c := by
  unfold jsToLower
  rw [if_neg]
  omega

/-- `toLowerCase` fixes ASCII digits. -/
theorem jsToLower_eq_self_of_digit {c : Char} (h : isDigitC c = true) : jsToLower c = c := by
  apply jsToLower_eq_self
  simp only [isDigitC, Bool.and_eq_true, decide_eq_true_eq] at h
  omega

/-- `toLowerCase` fixes whitespace. -/
theorem jsToLower_eq_self_of_ws {c : Char} (h : jsWs c = true) : jsToLower c = c := by
  apply jsToLower_eq_self
  simp only [jsWs, Bool.or_eq_true, beq_iff_eq, Bool.and_eq_true, decide_eq_true_eq] at h
  omega

/-- Lower-casing a string every character of which is already fixed does
nothing. -/
theorem lowerL_eq_self {l : List Char} (h : ∀ c ∈ l, jsToLower c = c) : lowerL l = l := by
  unfold lowerL
  induction l with
  | nil => rfl
  | cons c cs ih =>
      simp only [List.map_cons, List.cons.injEq]
      exact ⟨h c (by simp), ih fun d hd => h d (by simp [hd])⟩

/-- `dropWhile` does nothing when the head fails the predicate. -/
theorem dropWhile_eq_self_of_head {p : Char → Bool} {l : List Char}
    (h : ∀ c, l.head? = some c → p c = false) : l.dropWhile p = l := by
  cases l with
  | nil => rfl
  | cons c cs => simp [List.dropWhile_cons, h c rfl]

/-- Trimming does nothing when both ends are not whitespace. -/
theorem jsTrim_eq_self {l : List Char} (h1 : ∀ c, l.head? = some c → jsWs c = false)
    (h2 : ∀ c, l.getLast? = some c → jsWs c = false) : jsTrim l = l := by
  unfold jsTrim
  rw [dropWhile_eq_self_of_head h1,
    dropWhile_eq_self_of_head fun c hc => h2 c (by rwa [List.head?_reverse] at hc)]
  exact List.reverse_reverse l

/-- Trimming does nothing on a string with no whitespace at all. -/
theorem jsTrim_eq_self_of_mem {l : List Char} (h : ∀ c ∈ l, jsWs c = false) : jsTrim l = l :=
  jsTrim_eq_self
    (fun c hc => h c (List.mem_of_mem_head? (by simp [hc])))
    (fun c hc => h c (List.mem_of_getLast?_eq_some hc))

/-- A whitespace-free string of already-lower-case characters is fixed by the
parser's `trim().toLowerCase()` preprocessing. -/
theorem trimLower_eq_self {l : List Char} (hws : ∀ c ∈ l, jsWs c = false)
    (hlow : ∀ c ∈ l, jsToLower c = c) : lowerL (jsTrim l) = l := by
  rw [jsTrim_eq_self_of_mem hws, lowerL_eq_self hlow]

/-- `takeWhile` runs past a leading block of satisfying characters. -/
theorem takeWhile_append_all {p : Char → Bool} {l₁ l₂ : List Char}
    (h : ∀ c ∈ l₁, p c = true) : (l₁ ++ l₂).takeWhile p = l₁ ++ l₂.takeWhile p := by
  induction l₁ with
  | nil => simp
  | cons c cs ih =>
      have hc : p c = true := h c (by simp)
      have ih2 := ih fun d hd => h d (by simp [hd])
      simp [List.takeWhile_cons, hc, ih2]

/-- `dropWhile` runs past a leading block of satisfying characters. -/
theorem dropWhile_append_all {p : Char → Bool} {l₁ l₂ : List Char}
    (h : ∀ c ∈ l₁, p c = true) : (l₁ ++ l₂).dropWhile p = l₂.dropWhile p := by
  induction l₁ with
  | nil => simp
  | cons c cs ih =>
      have hc : p c = true := h c (by simp)
      have ih2 := ih fun d hd => h d (by simp [hd])
      simp [List.dropWhile_cons, hc, ih2]

/-- `takeWhile` of an all-satisfying string is the whole string. -/
theorem takeWhile_eq_self_of_all {p : Char → Bool} {l : List Char}
    (h : ∀ c ∈ l, p c = true) : l.takeWhile p = l := by
  have := @takeWhile_append_all p l [] h
  simpa using this

/-- `dropWhile` of an all-satisfying string is empty. -/
theorem dropWhile_eq_nil_of_all {p : Char → Bool} {l : List Char}
    (h : ∀ c ∈ l, p c = true) : l.dropWhile p = [] :=
  List.dropWhile_eq_nil_iff.mpr h

/-! Supporting lemmas: the rounding formula. -/

/-- The natural-division formula of `roundTo15Frac` agrees with the
mathematical reading of `Math.round(minutes / 15) * 15` at
`minutes = num / den`: `Math.round x = ⌊x + 1/2⌋` for the non-negative
arguments that occur here. -/
theorem roundTo15Frac_floor (num den : ℕ) (h : 0 < den) :
    (roundTo15Frac num den : ℤ) = ⌊((num : ℚ) / den) / 15 + 1 / 2⌋ * 15 := by
  have hden : (den : ℚ) ≠ 0 := by positivity
  have hq : ((num : ℚ) / den) / 15 + 1 / 2 =
      ((2 * num + 15 * den : ℕ) : ℚ) / ((30 * den : ℕ) : ℚ) := by
    push_cast
    field_simp
    ring
  have hfloor : ⌊((2 * num + 15 * den : ℕ) : ℚ) / ((30 * den : ℕ) : ℚ)⌋ =
      (((2 * num + 15 * den) / (30 * den) : ℕ) : ℤ) := by
    rw [← @Nat.floor_div_eq_div ℚ _ _ (2 * num + 15 * den) (30 * den)]
    exact (Int.natCast_floor_eq_floor (by positivity)).symm
  rw [hq, hfloor]
  push_cast [roundTo15Frac]
  ring

/-- `roundTo15` takes a whole number of minutes to a nearest multiple of 15:
no multiple of 15 is strictly closer. -/
theorem roundTo15_nearest (n k : ℕ) (h : 15 ∣ k) :
    ((roundTo15 n : ℤ) - (n : ℤ)).natAbs ≤ ((k : ℤ) - (n : ℤ)).natAbs := by
  obtain ⟨j, rfl⟩ := h
  simp only [roundTo15, roundTo15Frac]
  omega

/-- Rounding a whole number of hours is the identity. -/
theorem roundTo15Frac_hours (k : ℕ) : roundTo15Frac (60 * k) 1 = 60 * k := by
  unfold roundTo15Frac
  omega

/-! Supporting lemmas: decimal rendering and its round trip. -/

/-- The digit characters are digits. -/
theorem isDigitC_digitChar10 (d : ℕ) : isDigitC (digitChar10 d) = true := by
  unfold digitChar10
  split <;> decide

/-- Reading back a rendered digit below ten gives the digit. -/
theorem digitVal_digitChar10 {d : ℕ} (h : d < 10) : digitVal (digitChar10 d) = d := by
  interval_cases d <;> decide

/-- The accumulator of `natToDecAux` is a pure suffix. -/
theorem natToDecAux_acc (fuel : ℕ) : ∀ (n : ℕ) (acc : List Char),
    natToDecAux fuel n acc = natToDecAux fuel n [] ++ acc := by
  induction fuel with
  | zero => intro n acc; simp [natToDecAux]
  | succ fuel ih =>
      intro n acc
      by_cases hn : n < 10
      · simp [natToDecAux, hn]
      · simp only [natToDecAux, hn, if_false]
        rw [ih (n / 10) (digitChar10 (n % 10) :: acc), ih (n / 10) [digitChar10 (n % 10)]]
        simp

/-- Every character a rendering produces is a digit. -/
theorem natToDecAux_digits (fuel : ℕ) : ∀ (n : ℕ) (c : Char),
    c ∈ natToDecAux fuel n [] → isDigitC c = true := by
  induction fuel with
  | zero => intro n c hc; simp [natToDecAux] at hc
  | succ fuel ih =>
      intro n c hc
      by_cases hn : n < 10
      · simp [natToDecAux, hn] at hc
        subst hc
        exact isDigitC_digitChar10 n
      · simp only [natToDecAux, hn, if_false] at hc
        rw [natToDecAux_acc] at hc
        rcases List.mem_append.1 hc with h | h
        · exact ih _ _ h
        · simp at h
          subst h
          exact isDigitC_digitChar10 _
    
/-- A rendering with positive fuel is non-empty. -/
theorem natToDecAux_ne_nil (fuel n : ℕ) : natToDecAux (fuel + 1) n [] ≠ [] := by
  by_cases hn : n < 10
  · simp [natToDecAux, hn]
  · simp only [natToDecAux, hn, if_false]
    rw [natToDecAux_acc]
    simp

/-- Folding the digit-accumulation step over a rendering of `n` recovers `n`
(shifted past the digits already accumulated). -/
theorem natToDecAux_foldl (fuel : ℕ) : ∀ (n a : ℕ), n < 10 ^ fuel →
    List.foldl (fun acc c => 10 * acc + digitVal c) a (natToDecAux fuel n []) =
      a * 10 ^ (natToDecAux fuel n []).length + n := by
  induction fuel with
  | zero =>
      intro n a hn
      interval_cases n
      simp [natToDecAux]
  | succ fuel ih =>
      intro n a hn
      by_cases h10 : n < 10
      · simp [natToDecAux, h10, digitVal_digitChar10 h10]
        ring
      · have hdiv : n / 10 < 10 ^ fuel := by
          rw [Nat.div_lt_iff_lt_mul (by norm_num)]
          calc n < 10 ^ (fuel + 1) := hn
          _ = 10 ^ fuel * 10 := by ring
        have hstep : natToDecAux (fuel + 1) n [] =
            natToDecAux fuel (n / 10) [] ++ [digitChar10 (n % 10)] := by
          simp only [natToDecAux, h10, if_false]
          exact natToDecAux_acc fuel (n / 10) [digitChar10 (n % 10)]
        rw [hstep, List.foldl_append, ih (n / 10) a hdiv]
        simp only [List.foldl_cons, List.foldl_nil, List.length_append, List.length_cons,
          List.length_nil]
        rw [digitVal_digitChar10 (Nat.mod_lt n (by norm_num))]
        set L := (natToDecAux fuel (n / 10) []).length with hL
        rw [show (0 : ℕ) + 1 = 1 from rfl, pow_succ, ← mul_assoc]
        omega

/-- Reading a rendered natural back with `parseInt` recovers it. -/
theorem natOfDigits_natToDec (n : ℕ) : natOfDigits (natToDec n) = n := by
  have hbound : n < 10 ^ (n + 1) := by
    calc n < 2 ^ n := Nat.lt_two_pow n
    _ ≤ 2 ^ (n + 1) := Nat.pow_le_pow_right (by norm_num) (Nat.le_succ n)
    _ ≤ 10 ^ (n + 1) := Nat.pow_le_pow_left (by norm_num) _
  have := natToDecAux_foldl (n + 1) n 0 hbound
  unfold natOfDigits natToDec
  simpa using this

/-- A rendering is never the empty string. -/
theorem natToDec_ne_nil (n : ℕ) : natToDec n ≠ [] := natToDecAux_ne_nil n n

/-- Every character of a rendering is a digit. -/
theorem natToDec_digits (n : ℕ) : ∀ c ∈ natToDec n, isDigitC c = true :=
  fun c hc => natToDecAux_digits (n + 1) n c hc

/-! Supporting lemmas: the greedy subsequence scan and the literal-starts-with
test. -/

/-- A true-iff characterisation turns a Bool into a decide. -/
theorem bool_eq_decide {b : Bool} {p : Prop} [Decidable p] (h : b = true ↔ p) :
    b = decide p := by
  cases b
  · simp only [Bool.false_eq, decide_eq_false_iff_not]
    intro hp
    exact absurd (h.2 hp) (by simp)
  · exact (decide_eq_true (h.1 rfl)).symm

/-- The greedy left-to-right scan succeeds exactly on subsequences: committing
to the first occurrence of each query character never loses a match. -/
theorem subseqScan_iff_sublist (t : List Char) : ∀ q : List Char,
    subseqScan t q = true ↔ List.Sublist q t := by
  induction t with
  | nil =>
      intro q
      cases q <;> simp [subseqScan]
  | cons c ts ih =>
      intro q
      cases q with
      | nil => simp [subseqScan]
      | cons q0 qs =>
          simp only [subseqScan]
          by_cases hq : c = q0
          · subst hq
            rw [if_pos rfl, ih qs]
            exact List.cons_sublist_cons.symm
          · rw [if_neg hq, ih (q0 :: qs)]
            constructor
            · exact fun h => h.cons c
            · intro h
              cases h with
              | cons _ h => exact h
              | cons₂ => exact absurd rfl hq

/-- `startsWithL` is the literal-leading-segment relation. -/
theorem startsWithL_iff (t : List Char) : ∀ p : List Char,
    startsWithL t p = true ↔ p <+: t := by
  induction t with
  | nil =>
      intro p
      cases p <;> simp [startsWithL]
  | cons c ts ih =>
      intro p
      cases p with
      | nil => simp [startsWithL, List.nil_prefix]
      | cons p0 ps =>
          simp only [startsWithL]
          by_cases hp : c = p0
          · subst hp
            rw [if_pos rfl, ih ps, List.cons_prefix_cons]
            simp
          · rw [if_neg hp]
            constructor
            · intro h
              exact absurd h (by simp)
            · intro h
              exact absurd (List.cons_prefix_cons.1 h).1 (fun he => hp he.symm)

/-! Supporting lemmas: inverting and evaluating the five pattern matchers. -/

/-- `dropWhile` does nothing when no character satisfies the predicate. -/
theorem dropWhile_eq_self_of_mem {p : Char → Bool} {l : List Char}
    (h : ∀ c ∈ l, p c = false) : l.dropWhile p = l :=
  dropWhile_eq_self_of_head fun c hc => h c (List.mem_of_mem_head? (by simp [hc]))

/-- Whitespace is not a digit. -/
theorem isDigitC_eq_false_of_ws {c : Char} (h : jsWs c = true) : isDigitC c = false := by
  simp only [jsWs, Bool.or_eq_true, beq_iff_eq, Bool.and_eq_true, decide_eq_true_eq] at h
  simp only [isDigitC, Bool.and_eq_false_iff, decide_eq_false_iff_not, not_le]
  omega

/-- A non-empty all-digit string ends in a digit. -/
theorem getLast_digit_of_all {l : List Char} (h1 : l ≠ []) (h2 : ∀ c ∈ l, isDigitC c = true) :
    ∃ d, l.getLast? = some d ∧ isDigitC d = true := by
  cases hgl : l.getLast? with
  | none => exact absurd (List.getLast?_eq_none_iff.1 hgl) h1
  | some d => exact ⟨d, rfl, h2 d (List.mem_of_getLast?_eq_some hgl)⟩

/-- A successful colon match exposes the colon in the digit-stripped view. -/
theorem colonParts_dropWhile {l : List Char} {p : ℕ × ℕ} (h : colonParts l = some p) :
    ∃ ds2, l.dropWhile isDigitC = ':' :: ds2 ∧ ds2 ≠ [] ∧ ds2.all isDigitC = true := by
  unfold colonParts at h
  split at h
  · exact absurd h (by simp)
  · split at h
    · rename_i c ds2 heq hcond
      exact ⟨ds2, hcond.1 ▸ heq, hcond.2.2.1, hcond.2.2.2.2⟩
    · exact absurd h (by simp)

/-- A successful bare-decimal match exposes the point in the digit-stripped
view. -/
theorem decimalOnlyParts_dropWhile {l : List Char} {p : ℕ × ℕ}
    (h : decimalOnlyParts l = some p) :
    ∃ ds2, l.dropWhile isDigitC = '.' :: ds2 ∧ ds2 ≠ [] ∧ ds2.all isDigitC = true := by
  unfold decimalOnlyParts at h
  split at h
  · exact absurd h (by simp)
  · split at h
    · rename_i c ds2 heq hcond
      exact ⟨ds2, hcond.1 ▸ heq, hcond.2.1, hcond.2.2⟩
    · exact absurd h (by simp)

/-- A successful bare-integer match means a non-empty all-digit input. -/
theorem plainParts_some {l : List Char} {p : ℕ} (h : plainParts l = some p) :
    l ≠ [] ∧ l.all isDigitC = true := by
  unfold plainParts at h
  split at h
  · assumption
  · exact absurd h (by simp)

/-- A successful hour-suffix match means the input ends in `h`. -/
theorem hourParts_getLast {l : List Char} {p : ℕ × ℕ} (h : hourParts l = some p) :
    l.getLast? = some 'h' := by
  unfold hourParts at h
  split at h
  · exact absurd h (by simp)
  · split at h
    · rename_i c rest heq hc
      rw [← List.head?_reverse, heq, hc]
      simp
    · exact absurd h (by simp)

/-- A successful minute-suffix match means the input ends in `m`. -/
theorem minParts_getLast {l : List Char} {p : ℕ} (h : minParts l = some p) :
    l.getLast? = some 'm' := by
  unfold minParts at h
  split at h
  · exact absurd h (by simp)
  · split at h
    · rename_i c rest heq hc
      rw [← List.head?_reverse, heq, hc]
      simp
    · exact absurd h (by simp)

/-- A list whose digit-stripped view starts with a non-digit run followed by
digits ends in a digit. -/
theorem getLast_digit_of_dropWhile {l : List Char} {c : Char} {ds2 : List Char}
    (h : l.dropWhile isDigitC = c :: ds2) (h2 : ds2 ≠ []) (h3 : ds2.all isDigitC = true) :
    ∃ d, l.getLast? = some d ∧ isDigitC d = true := by
  obtain ⟨d, hd, hdig⟩ :=
    getLast_digit_of_all h2 (fun x hx => List.all_eq_true.1 h3 x hx)
  refine ⟨d, ?_, hdig⟩
  conv_lhs => rw [← List.takeWhile_append_dropWhile isDigitC l, h]
  rw [List.getLast?_append_of_ne_nil _ (by simp)]
  rw [show c :: ds2 = [c] ++ ds2 from rfl, List.getLast?_append_of_ne_nil _ h2]
  exact hd

/-- The colon matcher fails when the digit-stripped view starts with anything
but a colon. -/
theorem colonParts_none_head {l : List Char} {c : Char} {ds2 : List Char}
    (h : l.dropWhile isDigitC = c :: ds2) (hc : c ≠ ':') : colonParts l = none := by
  simp only [colonParts, h]
  rw [if_neg]
  intro hcond
  exact hc hcond.1

/-- The colon matcher fails on an all-digit input. -/
theorem colonParts_none_digits {l : List Char} (h : ∀ c ∈ l, isDigitC c = true) :
    colonParts l = none := by
  simp only [colonParts, dropWhile_eq_nil_of_all h]

/-- The bare-decimal matcher fails when the digit-stripped view starts with
anything but a point. -/
theorem decimalOnlyParts_none_head {l : List Char} {c : Char} {ds2 : List Char}
    (h : l.dropWhile isDigitC = c :: ds2) (hc : c ≠ '.') : decimalOnlyParts l = none := by
  simp only [decimalOnlyParts, h]
  rw [if_neg]
  intro hcond
  exact hc hcond.1

/-- The bare-decimal matcher fails on an all-digit input. -/
theorem decimalOnlyParts_none_digits {l : List Char} (h : ∀ c ∈ l, isDigitC c = true) :
    decimalOnlyParts l = none := by
  simp only [decimalOnlyParts, dropWhile_eq_nil_of_all h]

/-- The hour matcher fails on inputs not ending in `h`. -/
theorem hourParts_none_getLast {l : List Char} {c : Char} (h : l.getLast? = some c)
    (hc : c ≠ 'h') : hourParts l = none := by
  cases hrev : l.reverse with
  | nil => simp [hourParts, hrev]
  | cons c' rest =>
      have hcc : c' = c := by
        rw [← List.head?_reverse, hrev] at h
        simpa using h
      subst hcc
      simp only [hourParts, hrev]
      rw [if_neg hc]

/-- The minute matcher fails on inputs not ending in `m`. -/
theorem minParts_none_getLast {l : List Char} {c : Char} (h : l.getLast? = some c)
    (hc : c ≠ 'm') : minParts l = none := by
  cases hrev : l.reverse with
  | nil => simp [minParts, hrev]
  | cons c' rest =>
      have hcc : c' = c := by
        rw [← List.head?_reverse, hrev] at h
        simpa using h
      subst hcc
      simp only [minParts, hrev]
      rw [if_neg hc]

/-- The bare-integer matcher fails as soon as one character is not a digit. -/
theorem plainParts_none_of_mem {l : List Char} {c : Char} (hc : c ∈ l)
    (h : isDigitC c = false) : plainParts l = none := by
  unfold plainParts
  rw [if_neg]
  rintro ⟨-, hall⟩
  rw [List.all_eq_true] at hall
  rw [hall c hc] at h
  exact absurd h (by simp)

/-- The colon matcher succeeds on digits, colon, one or two digits, capturing
both groups. -/
theorem colonParts_eval {hds mds : List Char} (h1 : hds ≠ [])
    (h2 : ∀ c ∈ hds, isDigitC c = true) (h3 : mds ≠ []) (h4 : mds.length ≤ 2)
    (h5 : ∀ c ∈ mds, isDigitC c = true) :
    colonParts (hds ++ ':' :: mds) = some (natOfDigits hds, natOfDigits mds) := by
  have hcolon : isDigitC ':' = false := by decide
  have hd : (hds ++ ':' :: mds).dropWhile isDigitC = ':' :: mds := by
    rw [dropWhile_append_all h2, List.dropWhile_cons, hcolon]
    simp
  have ht : (hds ++ ':' :: mds).takeWhile isDigitC = hds := by
    rw [takeWhile_append_all h2, List.takeWhile_cons, hcolon]
    simp
  simp only [colonParts, hd, ht]
  simp [h1, h3, h4, List.all_eq_true.2 h5]

/-- The hour matcher succeeds on an all-digit run followed by `h`, capturing
the run's integer value over denominator one. -/
theorem hourParts_eval_digits {ds : List Char} (h1 : ds ≠ [])
    (h2 : ∀ c ∈ ds, isDigitC c = true) : hourParts (ds ++ ['h']) = some (natOfDigits ds, 1) := by
  have hrev : (ds ++ ['h']).reverse = 'h' :: ds.reverse := by simp
  have hdw : ds.reverse.dropWhile jsWs = ds.reverse :=
    dropWhile_eq_self_of_mem fun c hc =>
      jsWs_eq_false_of_digit (h2 c (List.mem_reverse.1 hc))
  simp only [hourParts, hrev]
  rw [if_pos trivial, hdw, List.reverse_reverse]
  simp only [decimalParts, dropWhile_eq_nil_of_all h2]
  rw [if_pos h1]

/-- The minute matcher accepts whitespace between the digit run and the `m`
suffix, capturing the run's integer value. -/
theorem minParts_eval {ds wsl : List Char} (h1 : ds ≠ [])
    (h2 : ∀ c ∈ ds, isDigitC c = true) (h3 : ∀ c ∈ wsl, jsWs c = true) :
    minParts (ds ++ wsl ++ ['m']) = some (natOfDigits ds) := by
  have hrev : (ds ++ wsl ++ ['m']).reverse = 'm' :: (wsl.reverse ++ ds.reverse) := by simp
  have hdw : (wsl.reverse ++ ds.reverse).dropWhile jsWs = ds.reverse := by
    rw [dropWhile_append_all fun c hc => h3 c (List.mem_reverse.1 hc)]
    exact dropWhile_eq_self_of_mem fun c hc =>
      jsWs_eq_false_of_digit (h2 c (List.mem_reverse.1 hc))
  simp only [minParts, hrev]
  rw [if_pos trivial]
  simp only [hdw, List.reverse_reverse]
  rw [if_pos ⟨h1, List.all_eq_true.2 h2⟩]

/-- The bare-integer matcher succeeds on a non-empty all-digit input. -/
theorem plainParts_eval {ds : List Char} (h1 : ds ≠ [])
    (h2 : ∀ c ∈ ds, isDigitC c = true) : plainParts ds = some (natOfDigits ds) := by
  unfold plainParts
  rw [if_pos ⟨h1, List.all_eq_true.2 h2⟩]

/-! Supporting lemmas: the five patterns are mutually exclusive, and every
successful parse is a multiple of 15. -/

/-- A successful bare-decimal match means the input ends in a digit. -/
theorem decimalOnlyParts_getLast {u : List Char} (h : decimalOnlyParts u ≠ none) :
    ∃ d, u.getLast? = some d ∧ isDigitC d = true := by
  obtain ⟨p, hp⟩ := Option.ne_none_iff_exists'.1 h
  obtain ⟨ds2, hdw, hne, hall⟩ := decimalOnlyParts_dropWhile hp
  exact getLast_digit_of_dropWhile hdw hne hall

/-- At most one of the five patterns matches any given string: a matched
string ends in `h` (hour), ends in `m` (minute), or ends in a digit, and in
the last case the digit-stripped view starts with `:` (colon), starts with `.`
(bare decimal), or is empty (bare integer). -/
theorem patterns_exclusive (u : List Char) :
    (colonParts u ≠ none →
      hourParts u = none ∧ minParts u = none ∧ plainParts u = none ∧
        decimalOnlyParts u = none) ∧
    (hourParts u ≠ none →
      minParts u = none ∧ plainParts u = none ∧ decimalOnlyParts u = none) ∧
    (minParts u ≠ none → plainParts u = none ∧ decimalOnlyParts u = none) ∧
    (plainParts u ≠ none → decimalOnlyParts u = none) := by
  refine ⟨?_, ?_, ?_, ?_⟩
  · intro hc
    obtain ⟨pc, hpc⟩ := Option.ne_none_iff_exists'.1 hc
    obtain ⟨ds2, hdw, hne, hall⟩ := colonParts_dropWhile hpc
    obtain ⟨d, hlast, hdig⟩ := getLast_digit_of_dropWhile hdw hne hall
    have hmem : ':' ∈ u := List.dropWhile_subset isDigitC (by rw [hdw]; simp)
    refine ⟨hourParts_none_getLast hlast ?_, minParts_none_getLast hlast ?_,
      plainParts_none_of_mem hmem (by decide), decimalOnlyParts_none_head hdw (by decide)⟩
    · intro hd
      subst hd
      exact absurd hdig (by decide)
    · intro hd
      subst hd
      exact absurd hdig (by decide)
  · intro hh
    obtain ⟨ph, hph⟩ := Option.ne_none_iff_exists'.1 hh
    have hlast := hourParts_getLast hph
    refine ⟨minParts_none_getLast hlast (by decide),
      plainParts_none_of_mem (List.mem_of_getLast?_eq_some hlast) (by decide), ?_⟩
    by_contra hdec
    obtain ⟨d, hlast2, hdig⟩ := decimalOnlyParts_getLast hdec
    rw [hlast] at hlast2
    cases hlast2
    exact absurd hdig (by decide)
  · intro hm
    obtain ⟨pm, hpm⟩ := Option.ne_none_iff_exists'.1 hm
    have hlast := minParts_getLast hpm
    refine ⟨plainParts_none_of_mem (List.mem_of_getLast?_eq_some hlast) (by decide), ?_⟩
    by_contra hdec
    obtain ⟨d, hlast2, hdig⟩ := decimalOnlyParts_getLast hdec
    rw [hlast] at hlast2
    cases hlast2
    exact absurd hdig (by decide)
  · intro hp
    obtain ⟨pp, hpp⟩ := Option.ne_none_iff_exists'.1 hp
    obtain ⟨-, hall⟩ := plainParts_some hpp
    exact decimalOnlyParts_none_digits (List.all_eq_true.1 hall)

/-- Every value the pattern cascade produces is a multiple of 15: each branch
ends in `roundTo15` or `roundTo15Frac`, whose results carry an explicit
`* 15`. -/
theorem parseTimeTrimmed_dvd15 {t : List Char} {n : ℕ} (h : parseTimeTrimmed t = some n) :
    15 ∣ n := by
  unfold parseTimeTrimmed at h
  split at h
  · exact absurd h (by simp)
  split at h
  · split at h
    · exact absurd h (by simp)
    · obtain rfl : _ = n := Option.some.inj h
      exact dvd_mul_left 15 _
  split at h
  · obtain rfl : _ = n := Option.some.inj h
    exact dvd_mul_left 15 _
  split at h
  · obtain rfl : _ = n := Option.some.inj h
    exact dvd_mul_left 15 _
  split at h
  · obtain rfl : _ = n := Option.some.inj h
    exact dvd_mul_left 15 _
  split at h
  · obtain rfl : _ = n := Option.some.inj h
    exact dvd_mul_left 15 _
  · exact absurd h (by simp)

/-- Every value `parseTimeInput` produces is a multiple of 15. -/
theorem parseTimeInput_dvd15 {x : List Char} {n : ℕ} (h : parseTimeInput x = some n) :
    15 ∣ n :=
  parseTimeTrimmed_dvd15 h

/-! Supporting lemmas: evaluating the pattern cascade on structured inputs. -/

/-- Whitespace is never a colon. -/
theorem ws_ne_colon {c : Char} (h : jsWs c = true) : c ≠ ':' := by
  intro he
  subst he
  exact absurd h (by decide)

/-- The cascade on `digits ':' digits`: the colon pattern wins, computes
`hours * 60 + minutes`, rejects minutes of 60 or more and rounds otherwise. -/
theorem parseTimeTrimmed_eval_colon {hds mds : List Char} (h1 : hds ≠ [])
    (h2 : ∀ c ∈ hds, isDigitC c = true) (h3 : mds ≠ []) (h4 : mds.length ≤ 2)
    (h5 : ∀ c ∈ mds, isDigitC c = true) :
    parseTimeTrimmed (hds ++ ':' :: mds) =
      if 60 ≤ natOfDigits mds then none
      else some (roundTo15 (natOfDigits hds * 60 + natOfDigits mds)) := by
  unfold parseTimeTrimmed
  rw [if_neg (by simp), colonParts_eval h1 h2 h3 h4 h5]

/-- The cascade on a non-empty all-digit string: the bare-integer pattern wins
and the raw value is rounded. -/
theorem parseTimeTrimmed_eval_digits {ds : List Char} (h1 : ds ≠ [])
    (h2 : ∀ c ∈ ds, isDigitC c = true) :
    parseTimeTrimmed ds = some (roundTo15 (natOfDigits ds)) := by
  obtain ⟨d, hlast, hdig⟩ := getLast_digit_of_all h1 h2
  unfold parseTimeTrimmed
  rw [if_neg h1, colonParts_none_digits h2,
    hourParts_none_getLast hlast (by intro he; subst he; exact absurd hdig (by decide)),
    minParts_none_getLast hlast (by intro he; subst he; exact absurd hdig (by decide)),
    plainParts_eval h1 h2]

/-- The cascade on `digits 'h'`: the hour pattern wins with denominator one. -/
theorem parseTimeTrimmed_eval_digits_h {ds : List Char} (h1 : ds ≠ [])
    (h2 : ∀ c ∈ ds, isDigitC c = true) :
    parseTimeTrimmed (ds ++ ['h']) = some (roundTo15Frac (60 * natOfDigits ds) 1) := by
  have hdw : (ds ++ ['h']).dropWhile isDigitC = ['h'] := by
    rw [dropWhile_append_all h2, List.dropWhile_cons,
      show isDigitC 'h' = false from by decide]
    simp
  unfold parseTimeTrimmed
  rw [if_neg (by simp), colonParts_none_head hdw (by decide),
    hourParts_eval_digits h1 h2]

/-- The cascade on `digits whitespace 'm'`: the minute pattern wins — the
minute regex tolerates whitespace before its suffix. -/
theorem parseTimeTrimmed_eval_min_ws {ds wsl : List Char} (h1 : ds ≠ [])
    (h2 : ∀ c ∈ ds, isDigitC c = true) (h3 : ∀ c ∈ wsl, jsWs c = true) :
    parseTimeTrimmed (ds ++ wsl ++ ['m']) = some (roundTo15 (natOfDigits ds)) := by
  have htail : (wsl ++ ['m']).dropWhile isDigitC = wsl ++ ['m'] := by
    apply dropWhile_eq_self_of_head
    cases wsl with
    | nil =>
        intro c hc
        simp at hc
        subst hc
        decide
    | cons w ws2 =>
        intro c hc
        simp at hc
        subst hc
        exact isDigitC_eq_false_of_ws (h3 w (by simp))
  have hdw : (ds ++ wsl ++ ['m']).dropWhile isDigitC = wsl ++ ['m'] := by
    rw [List.append_assoc, dropWhile_append_all h2, htail]
  have hcolon : colonParts (ds ++ wsl ++ ['m']) = none := by
    cases wsl with
    | nil => exact colonParts_none_head (by simpa using hdw) (by decide)
    | cons w ws2 =>
        exact colonParts_none_head (by simpa using hdw) (ws_ne_colon (h3 w (by simp)))
  have hlast : (ds ++ wsl ++ ['m']).getLast? = some 'm' := by
    rw [List.getLast?_append_of_ne_nil _ (by simp)]
    rfl
  unfold parseTimeTrimmed
  rw [if_neg (by simp), hcolon, hourParts_none_getLast hlast (by decide),
    minParts_eval h1 h2 h3]

/-- The parser's preprocessing fixes `digits whitespace 'm'` inputs: the ends
are not whitespace and no character is upper-case. -/
theorem trimLower_min_ws {ds wsl : List Char} (h1 : ds ≠ [])
    (h2 : ∀ c ∈ ds, isDigitC c = true) (h3 : ∀ c ∈ wsl, jsWs c = true) :
    lowerL (jsTrim (ds ++ wsl ++ ['m'])) = ds ++ wsl ++ ['m'] := by
  have hlow : ∀ c ∈ ds ++ wsl ++ ['m'], jsToLower c = c := by
    intro c hc
    simp only [List.append_assoc, List.mem_append, List.mem_cons] at hc
    rcases hc with hc | hc | hc
    · exact jsToLower_eq_self_of_digit (h2 c hc)
    · exact jsToLower_eq_self_of_ws (h3 c hc)
    · simp at hc
      subst hc
      decide
  obtain ⟨d, ds2, rfl⟩ := List.exists_cons_of_ne_nil h1
  have hhead : ∀ c, ((d :: ds2) ++ wsl ++ ['m']).head? = some c → jsWs c = false := by
    intro c hc
    have hdc : d = c := by simpa using hc
    subst hdc
    exact jsWs_eq_false_of_digit (h2 d (by simp))
  have hlast : ∀ c, ((d :: ds2) ++ wsl ++ ['m']).getLast? = some c → jsWs c = false := by
    intro c hc
    rw [List.getLast?_append_of_ne_nil _ (by simp)] at hc
    have hmc : 'm' = c := by simpa using hc
    subst hmc
    decide
  rw [jsTrim_eq_self hhead hlast, lowerL_eq_self hlow]

/-- The parser's preprocessing fixes all-digit inputs. -/
theorem trimLower_digits {ds : List Char} (h2 : ∀ c ∈ ds, isDigitC c = true) :
    lowerL (jsTrim ds) = ds :=
  trimLower_eq_self (fun c hc => jsWs_eq_false_of_digit (h2 c hc))
    (fun c hc => jsToLower_eq_self_of_digit (h2 c hc))

/-- The parser's preprocessing fixes `digits ':' digits` inputs. -/
theorem trimLower_colon {hds mds : List Char} (h2 : ∀ c ∈ hds, isDigitC c = true)
    (h5 : ∀ c ∈ mds, isDigitC c = true) :
    lowerL (jsTrim (hds ++ ':' :: mds)) = hds ++ ':' :: mds := by
  have hall : ∀ c ∈ hds ++ ':' :: mds, isDigitC c = true ∨ c = ':' := by
    intro c hc
    rcases List.mem_append.1 hc with h | h
    · exact Or.inl (h2 c h)
    · rcases List.mem_cons.1 h with h | h
      · exact Or.inr h
      · exact Or.inl (h5 c h)
  apply trimLower_eq_self
  · intro c hc
    rcases hall c hc with h | h
    · exact jsWs_eq_false_of_digit h
    · subst h
      decide
  · intro c hc
    rcases hall c hc with h | h
    · exact jsToLower_eq_self_of_digit h
    · subst h
      decide

/-- The parser's preprocessing fixes `digits 'h'` inputs. -/
theorem trimLower_digits_h {ds : List Char} (h2 : ∀ c ∈ ds, isDigitC c = true) :
    lowerL (jsTrim (ds ++ ['h'])) = ds ++ ['h'] := by
  have hall : ∀ c ∈ ds ++ ['h'], isDigitC c = true ∨ c = 'h' := by
    intro c hc
    rcases List.mem_append.1 hc with h | h
    · exact Or.inl (h2 c h)
    · exact Or.inr (by simpa using h)
  apply trimLower_eq_self
  · intro c hc
    rcases hall c hc with h | h
    · exact jsWs_eq_false_of_digit h
    · subst h
      decide
  · intro c hc
    rcases hall c hc with h | h
    · exact jsToLower_eq_self_of_digit h
    · subst h
      decide

/-- `formatDuration` of a positive whole number of hours renders `"kh"`. -/
theorem formatDuration_hours {k : ℕ} (hk : k ≠ 0) :
    formatDuration (60 * k) = natToDec k ++ ['h'] := by
  unfold formatDuration
  have h1 : 60 * k / 60 = k := by omega
  have h2 : 60 * k % 60 = 0 := by omega
  simp [h1, h2, hk]

/-! The claims. -/

/-- C9: the parser satisfies the specification's point examples —
`"30" ↦ 30`, `"30m" ↦ 30`, `"1h" ↦ 60`, `"1.5h" ↦ 90`, `"2:30" ↦ 150`,
`"0.5" ↦ 30` — and the empty string and `"abc"` yield the unparsable sentinel
(`none`; the embedding is a total function, so no exception is possible). -/
theorem parse_point_examples :
    parseTimeInput ['3', '0'] = some 30 ∧
    parseTimeInput ['3', '0', 'm'] = some 30 ∧
    parseTimeInput ['1', 'h'] = some 60 ∧
    parseTimeInput ['1', '.', '5', 'h'] = some 90 ∧
    parseTimeInput ['2', ':', '3', '0'] = some 150 ∧
    parseTimeInput ['0', '.', '5'] = some 30 ∧
    parseTimeInput [] = none ∧
    parseTimeInput ['a', 'b', 'c'] = none := by
  decide

/-- C8: whenever the duration parser succeeds, the returned minute value is a
multiple of 15 (and, being a natural number of the embedding, non-negative). -/
theorem parse_multiple_of_15 : ∀ (input : List Char) (n : ℕ),
    parseTimeInput input = some n → 15 ∣ n :=
  fun _ _ h => parseTimeInput_dvd15 h

/-- Witness for C8 at the input `"30"`. -/
theorem parse_multiple_of_15_witness :
    parseTimeInput ['3', '0'] = some 30 ∧ 15 ∣ 30 :=
  ⟨by decide, parse_multiple_of_15 ['3', '0'] 30 (by decide)⟩

/-- C2 (amended): the parser rounds every bare-integer raw minute value with
`roundTo15`, which takes it to a nearest multiple of 15; in particular
`parse("7") = 0`, and `parse("23") = 30` (the code's `Math.round(23/15)*15`
is 30, the multiple of 15 nearest to 23 — not 15 as the original claim says). -/
theorem parse_rounds_to_15 :
    (∀ ds : List Char, ds ≠ [] → (∀ c ∈ ds, isDigitC c = true) →
        parseTimeInput ds = some (roundTo15 (natOfDigits ds))) ∧
    (∀ n k : ℕ, 15 ∣ k →
        ((roundTo15 n : ℤ) - (n : ℤ)).natAbs ≤ ((k : ℤ) - (n : ℤ)).natAbs) ∧
    parseTimeInput ['7'] = some 0 ∧ parseTimeInput ['2', '3'] = some 30 := by
  refine ⟨?_, roundTo15_nearest, by decide, by decide⟩
  intro ds h1 h2
  unfold parseTimeInput
  rw [trimLower_digits h2]
  exact parseTimeTrimmed_eval_digits h1 h2

/-- Witness for C2 at the input `"45"`. -/
theorem parse_rounds_to_15_witness :
    parseTimeInput ['4', '5'] = some (roundTo15 (natOfDigits ['4', '5'])) :=
  parse_rounds_to_15.1 ['4', '5'] (by decide) (by decide)

/-- Counterexample to C2 as stated: `parse("23")` is 30, not 15. -/
theorem parse_23_not_15 :
    parseTimeInput ['2', '3'] = some 30 ∧ parseTimeInput ['2', '3'] ≠ some 15 := by
  decide

/-- C5: on every colon-format input `H:MM` or `H:M` the parser rejects a
minutes component of 60 or more and otherwise returns `hours * 60 + minutes`
rounded by `roundTo15` to a nearest multiple of 15; in particular `"2:75"` is
unparsable and `"2:30"` parses to 150. -/
theorem parse_colon_format :
    (∀ hds mds : List Char, hds ≠ [] → (∀ c ∈ hds, isDigitC c = true) → mds ≠ [] →
        mds.length ≤ 2 → (∀ c ∈ mds, isDigitC c = true) →
        parseTimeInput (hds ++ ':' :: mds) =
          if 60 ≤ natOfDigits mds then none
          else some (roundTo15 (natOfDigits hds * 60 + natOfDigits mds))) ∧
    (∀ n k : ℕ, 15 ∣ k →
        ((roundTo15 n : ℤ) - (n : ℤ)).natAbs ≤ ((k : ℤ) - (n : ℤ)).natAbs) ∧
    parseTimeInput ['2', ':', '7', '5'] = none ∧
    parseTimeInput ['2', ':', '3', '0'] = some 150 := by
  refine ⟨?_, roundTo15_nearest, by decide, by decide⟩
  intro hds mds h1 h2 h3 h4 h5
  unfold parseTimeInput
  rw [trimLower_colon h2 h5]
  exact parseTimeTrimmed_eval_colon h1 h2 h3 h4 h5

/-- Witness for C5 at the input `"1:05"`. -/
theorem parse_colon_format_witness :
    parseTimeInput (['1'] ++ ':' :: ['0', '5']) =
      if 60 ≤ natOfDigits ['0', '5'] then none
      else some (roundTo15 (natOfDigits ['1'] * 60 + natOfDigits ['0', '5'])) :=
  parse_colon_format.1 ['1'] ['0', '5'] (by decide) (by decide) (by decide) (by decide)
    (by decide)

/-- C3 (amended): an input whose trimmed, lower-cased form matches none of the
five patterns is unparsable; at most one of the five patterns applies to any
given string (first, in the stated order, wins); but whitespace between the
number and its `h`/`m` suffix is permitted — the suffix regexes contain
`\s*` — so, e.g., digit runs followed by whitespace and `m` do parse. -/
theorem parse_pattern_cascade :
    (∀ input : List Char,
        colonParts (lowerL (jsTrim input)) = none →
        hourParts (lowerL (jsTrim input)) = none →
        minParts (lowerL (jsTrim input)) = none →
        plainParts (lowerL (jsTrim input)) = none →
        decimalOnlyParts (lowerL (jsTrim input)) = none →
        parseTimeInput input = none) ∧
    (∀ u : List Char,
        (colonParts u ≠ none →
          hourParts u = none ∧ minParts u = none ∧ plainParts u = none ∧
            decimalOnlyParts u = none) ∧
        (hourParts u ≠ none →
          minParts u = none ∧ plainParts u = none ∧ decimalOnlyParts u = none) ∧
        (minParts u ≠ none → plainParts u = none ∧ decimalOnlyParts u = none) ∧
        (plainParts u ≠ none → decimalOnlyParts u = none)) ∧
    (∀ ds wsl : List Char, ds ≠ [] → (∀ c ∈ ds, isDigitC c = true) →
        (∀ c ∈ wsl, jsWs c = true) →
        parseTimeInput (ds ++ wsl ++ ['m']) = some (roundTo15 (natOfDigits ds))) := by
  refine ⟨?_, patterns_exclusive, ?_⟩
  · intro input hc hh hm hp hd
    unfold parseTimeInput parseTimeTrimmed
    rw [hc, hh, hm, hp, hd]
    split <;> rfl
  · intro ds wsl h1 h2 h3
    unfold parseTimeInput
    rw [trimLower_min_ws h1 h2 h3]
    exact parseTimeTrimmed_eval_min_ws h1 h2 h3

/-- Counterexample to C3 as stated: `"1 h"`, with whitespace between the
number and its suffix, parses to 60 rather than being unparsable. -/
theorem parse_space_before_suffix :
    parseTimeInput ['1', ' ', 'h'] = some 60 ∧ parseTimeInput ['1', ' ', 'h'] ≠ none := by
  decide

/-- Witness for C3 at the input `"30 m"`. -/
theorem parse_pattern_cascade_witness :
    parseTimeInput (['3', '0'] ++ [' '] ++ ['m']) = some (roundTo15 (natOfDigits ['3', '0'])) :=
  parse_pattern_cascade.2.2 ['3', '0'] [' '] (by decide) (by decide) (by decide)

/-- C1 (amended): the parse–format round trip holds exactly as far as
`formatDuration` stays within a single unit: whenever `parse(x) = n` with
`n < 60` (rendered `"Nm"`) or `60 ∣ n` (rendered `"Nh"`, or `"0m"` for zero),
re-parsing the formatted string reproduces `n`.  When `n` has both non-zero
hours and leftover minutes, `formatDuration` renders `"Hh Mm"`, which the
parser rejects, so the round trip fails there (see the counterexample). -/
theorem parse_format_roundtrip :
    ∀ (x : List Char) (n : ℕ), parseTimeInput x = some n → n < 60 ∨ 60 ∣ n →
      parseTimeInput (formatDuration n) = some n := by
  intro x n hx hcase
  have h15 : 15 ∣ n := parseTimeInput_dvd15 hx
  rcases hcase with hlt | ⟨k, rfl⟩
  · obtain ⟨j, rfl⟩ := h15
    have hj : j < 4 := by omega
    interval_cases j <;> decide
  · rcases Nat.eq_zero_or_pos k with rfl | hk
    · decide
    · rw [formatDuration_hours (by omega)]
      unfold parseTimeInput
      rw [trimLower_digits_h (natToDec_digits k),
        parseTimeTrimmed_eval_digits_h (natToDec_ne_nil k) (natToDec_digits k),
        natOfDigits_natToDec, roundTo15Frac_hours]

/-- Counterexample to C1 as stated: `parse("75") = 75`, but
`formatDuration(75) = "1h 15m"` re-parses to `null`, not 75. -/
theorem parse_format_roundtrip_fails_75 :
    parseTimeInput ['7', '5'] = some 75 ∧
    formatDuration 75 = ['1', 'h', ' ', '1', '5', 'm'] ∧
    parseTimeInput (formatDuration 75) = none := by
  decide

/-- Witness for C1 at the input `"30"`. -/
theorem parse_format_roundtrip_witness :
    parseTimeInput (formatDuration 30) = some 30 :=
  parse_format_roundtrip ['3', '0'] 30 (by decide) (Or.inl (by decide))

/-- C4: with an empty query the filter returns the candidate list unchanged;
the filtered list is always a sublist of the input (original relative order,
no reordering or scoring); and with a non-empty query it keeps exactly the
candidates whose lower-cased label contains the lower-cased query as an
ordered, not necessarily contiguous, subsequence. -/
theorem filter_subsequence_spec :
    ∀ {α : Type} (getLabel : α → List Char) (items : List α) (q : List Char),
      filteredItems getLabel items [] = items ∧
      List.Sublist (filteredItems getLabel items q) items ∧
      (q ≠ [] → filteredItems getLabel items q =
        items.filter fun i => decide (List.Sublist (lowerL q) (lowerL (getLabel i)))) := by
  intro α g items q
  refine ⟨by simp [filteredItems], ?_, ?_⟩
  · unfold filteredItems
    split
    · exact List.filter_sublist items
    · exact List.Sublist.refl items
  · intro hq
    unfold filteredItems
    rw [if_pos hq]
    apply List.filter_congr
    intro i hi
    exact bool_eq_decide (subseqScan_iff_sublist (lowerL (g i)) (lowerL q))

/-- Witness for C4: the query `"ap"` against the example labels. -/
theorem filter_subsequence_spec_witness :
    filteredItems (fun l => l) exLabels ['a', 'p'] =
      exLabels.filter fun i => decide (List.Sublist (lowerL ['a', 'p']) (lowerL i)) :=
  (filter_subsequence_spec (fun l => l) exLabels ['a', 'p']).2.2 (by decide)

/-- C10: filtering is antitone in query extension — if `q` is a prefix of the
longer query, every candidate surviving the longer query's filter also
survives the filter for `q`; typing more characters can only shrink the
candidate set. -/
theorem filter_antitone :
    ∀ {α : Type} (getLabel : α → List Char) (items : List α) (q qlong : List Char),
      q <+: qlong → ∀ i, i ∈ filteredItems getLabel items qlong →
        i ∈ filteredItems getLabel items q := by
  intro α g items q qlong hpre i hi
  have hmem : i ∈ items := by
    unfold filteredItems at hi
    split at hi
    · exact List.mem_of_mem_filter hi
    · exact hi
  by_cases hq : q = []
  · subst hq
    simpa [filteredItems] using hmem
  · have hq2 : qlong ≠ [] := by
      intro h
      subst h
      exact hq (List.prefix_nil.1 hpre)
    unfold filteredItems at hi ⊢
    rw [if_pos hq2] at hi
    rw [if_pos hq]
    obtain ⟨-, hfz⟩ := List.mem_filter.1 hi
    refine List.mem_filter.2 ⟨hmem, ?_⟩
    unfold fuzzyMatch at hfz ⊢
    rw [subseqScan_iff_sublist] at hfz ⊢
    exact List.Sublist.trans (by simpa [lowerL] using (hpre.map jsToLower).sublist) hfz

/-- Witness for C10: `"s"` is a prefix of `"str"`, and `"Stripe"` survives the
`"str"` filter, hence also the `"s"` filter. -/
theorem filter_antitone_witness :
    exStripe ∈ filteredItems (fun l => l) exLabels ['s'] :=
  filter_antitone (fun l => l) exLabels ['s'] ['s', 't', 'r'] ⟨['t', 'r'], rfl⟩ exStripe
    (by decide)

/-- C6: the designated suggestion is `none` exactly when the query is empty or
the match list is empty, and otherwise it is the first element of the match
list; for the query `"str"` against the example labels it is `"Stripe"`. -/
theorem suggestion_first_match :
    (∀ (α : Type) (getLabel : α → List Char) (items : List α) (q : List Char),
      (suggestion getLabel items q = none ↔
        q = [] ∨ filteredItems getLabel items q = []) ∧
      (∀ x xs, q ≠ [] → filteredItems getLabel items q = x :: xs →
          suggestion getLabel items q = some x)) ∧
    suggestion (fun l => l) exLabels ['s', 't', 'r'] = some exStripe := by
  refine ⟨?_, by decide⟩
  intro α g items q
  constructor
  · unfold suggestion
    split_ifs with hcond
    · obtain ⟨hq, hlen⟩ := hcond
      rw [List.head?_eq_none_iff]
      exact (or_iff_right hq).symm
    · constructor
      · intro _
        by_cases hq : q = []
        · exact Or.inl hq
        · refine Or.inr (List.length_eq_zero.1 ?_)
          have hlen : ¬ 0 < (filteredItems g items q).length := fun hl => hcond ⟨hq, hl⟩
          omega
      · intro _
        rfl
  · intro x xs hq heq
    unfold suggestion
    rw [if_pos ⟨hq, by rw [heq]; simp⟩, heq]
    rfl

/-- Witness for C6: a non-empty filter result headed by `"Stripe"`. -/
theorem suggestion_first_match_witness :
    suggestion (fun l => l) exLabels ['s', 't'] = some exStripe :=
  (suggestion_first_match.1 (List Char) (fun l => l) exLabels ['s', 't']).2 exStripe []
    (by decide) (by decide)

/-- C7: for a non-empty query the inline-completion ghost text is `none`
unless the suggestion label, lower-cased, starts with the lower-cased query as
a literal prefix; when it does, the ghost text is the label with its first
`query.length` characters removed, original casing preserved.  `"Stripe"` with
`"str"` yields `"ipe"`; `"rcl"` against `"Vercel"` yields `none`. -/
theorem inline_completion_spec :
    (∀ (label q : List Char), q ≠ [] →
      (¬ (lowerL q <+: lowerL label) → inlineCompletionText label q = none) ∧
      ((lowerL q <+: lowerL label) →
          inlineCompletionText label q = some (label.drop q.length))) ∧
    inlineCompletionText exStripe ['s', 't', 'r'] = some ['i', 'p', 'e'] ∧
    inlineCompletionText exVercel ['r', 'c', 'l'] = none := by
  refine ⟨?_, by decide, by decide⟩
  intro label q hq
  constructor
  · intro hnp
    unfold inlineCompletionText
    rw [if_neg]
    intro hshow
    unfold showInlineSuggestion at hshow
    rw [Bool.and_eq_true] at hshow
    exact hnp ((startsWithL_iff _ _).1 hshow.1)
  · intro hp
    have hcond : showInlineSuggestion label q = true := by
      unfold showInlineSuggestion
      rw [Bool.and_eq_true]
      exact ⟨(startsWithL_iff _ _).2 hp, decide_eq_true (List.length_pos.mpr hq)⟩
    unfold inlineCompletionText
    rw [if_pos hcond]

/-- Witness for C7: `"St"` against `"Stripe"` shows the ghost text `"ripe"`. -/
theorem inline_completion_spec_witness :
    inlineCompletionText exStripe ['S', 't'] = some (exStripe.drop (['S', 't'].length)) :=
  (inline_completion_spec.1 exStripe ['S', 't'] (by decide)).2 (by decide)
